import Mathlib

/-!
# Verification of the tequila objective-graph core

The repository ships only tutorial notebooks; the core library (Variable,
Procedure, Observable, ExpectationNode, Objective, Compiler, Differentiator,
NoiseModel) is not part of the source tree.  Every definition below is
therefore modelled from the specification document describing that core,
and theorems settle the frozen claims against this model.
-/

namespace Tequila

/-- Modelled from the spec: a Variable is an immutable named scalar
parameter identifier; equality is by name. -/
abbrev VarName := String

/-- Modelled from the spec: a gate parameter is a Variable, a constant, or an
expression of Variables (here: a variable shifted by a constant, which is the
expression form the parameter-shift differentiator produces). -/
inductive Param where
  | const (c : ℚ)
  | var (v : VarName)
  | shifted (v : VarName) (s : ℚ)
deriving DecidableEq, Repr

/-- Modelled from the spec: one abstract gate operation of a Procedure:
`{operation_kind, target_qubits, control_qubits, parameter}`. -/
structure GateOp where
  kind : String
  targets : List ℕ
  controls : List ℕ
  param : Param
deriving DecidableEq, Repr

/-- Modelled from the spec: a Procedure is an ordered sequence of abstract
gate operations; immutable; equality is structural. -/
structure Procedure where
  ops : List GateOp
deriving DecidableEq, Repr

/-- Modelled from the spec: Procedure concatenation produces a new Procedure,
never mutating operands. -/
def Procedure.append (p q : Procedure) : Procedure := ⟨p.ops ++ q.ops⟩

/-- Modelled from the spec: an Observable maps basis-term labels to
coefficients; immutable; equality is structural. -/
structure Observable where
  terms : List (String × ℚ)
deriving DecidableEq, Repr

/-- Modelled from the spec: an ExpectationNode pairs one Procedure with one
Observable; two nodes are the same entity iff structurally equal. -/
structure ExpectationNode where
  procedure : Procedure
  observable : Observable
deriving DecidableEq, Repr

/-- Modelled from the spec: one noise entry
`{probability, qubit_level, kind}`. -/
structure NoiseEntry where
  probability : ℚ
  qubit_level : ℕ
  kind : String
deriving DecidableEq, Repr

/-- Modelled from the spec: a NoiseModel is an ordered sequence of noise
entries, immutable once constructed, opaque to the Compiler. -/
structure NoiseModel where
  entries : List NoiseEntry
deriving DecidableEq, Repr

/-- Modelled from the spec: NoiseModel addition appends the second sequence
after the first, preserving each side's internal order. -/
def NoiseModel.add (a b : NoiseModel) : NoiseModel := ⟨a.entries ++ b.entries⟩

instance : Add NoiseModel := ⟨NoiseModel.add⟩

/-- Variables occurring in a gate parameter, in order. -/
def Param.vars : Param → List VarName
  | .const _ => []
  | .var v => [v]
  | .shifted v _ => [v]

/-- Variables of a Procedure in gate-sequence order (with repetitions). -/
def Procedure.varList (p : Procedure) : List VarName :=
  (p.ops.map (fun g => g.param.vars)).flatten

/-- Variables of an ExpectationNode in traversal order (with repetitions);
observables carry only constant coefficients. -/
def ExpectationNode.varList (e : ExpectationNode) : List VarName :=
  e.procedure.varList

/-- Modelled from the spec: a leaf of the objective DAG is either a raw
(uncompiled) ExpectationNode or one already compiled to some backend, carrying
the identity of its backend executable. -/
inductive OLeaf where
  | raw (e : ExpectationNode)
  | compiled (e : ExpectationNode) (backend : String) (exec : ℕ)
deriving DecidableEq, Repr

/-- The ExpectationNode underlying a leaf. -/
def OLeaf.node : OLeaf → ExpectationNode
  | .raw e => e
  | .compiled e _ _ => e

/-- Modelled from the spec: the binary algebraic combinators of internal
objective nodes: add, subtract, multiply, divide, power. -/
inductive Comb where
  | add
  | sub
  | mul
  | div
  | pow
deriving DecidableEq, Repr

/-- Modelled from the spec: an Objective is an immutable DAG whose leaves are
ExpectationNodes or numeric constants and whose internal nodes are algebraic
combinators (binary ops and unary transforms, the latter named and interpreted
by the evaluator). -/
inductive Objective where
  | const (c : ℚ)
  | leaf (l : OLeaf)
  | bin (op : Comb) (a b : Objective)
  | un (f : String) (a : Objective)
deriving DecidableEq, Repr

/-- Full traversal variable list of an Objective, leaves in left-to-right
order, with repetitions. -/
def Objective.varList : Objective → List VarName
  | .const _ => []
  | .leaf l => l.node.varList
  | .bin _ a b => a.varList ++ b.varList
  | .un _ a => a.varList

/-- Remove duplicates from a list keeping the first occurrence of each
element, preserving first-appearance order. -/
def firstDedup : List VarName → List VarName
  | [] => []
  | x :: xs => x :: firstDedup (xs.filter (fun y => y ≠ x))
termination_by l => l.length
decreasing_by
  simp only [List.length_cons]
  exact Nat.lt_succ_of_le (List.length_filter_le _ _)

/-- Modelled from the spec: `extract_variables` returns the deterministic
variable ordering — unique variable names sorted by first appearance in the
fixed left-to-right traversal, duplicates removed. -/
def Objective.extract_variables (o : Objective) : List VarName :=
  firstDedup o.varList

/-- Reference formulation of a first-appearance scan: walk the list left to
right, appending each element the first time it is seen. -/
def firstSeen (acc : List VarName) : List VarName → List VarName
  | [] => acc
  | x :: xs => if x ∈ acc then firstSeen acc xs else firstSeen (acc ++ [x]) xs

/-- A variable binding: mapping from variable name to value. -/
abbrev Binding := VarName → ℚ

/-- Interpretation of exact backend evaluation of one ExpectationNode under a
binding: abstract parameter standing for the backend-agnostic simulation
semantics `⟨ψ(U,v)∣H∣ψ(U,v)⟩`. -/
abbrev NodeSem := ExpectationNode → Binding → ℚ

/-- Interpretation of named unary transforms. -/
abbrev TransSem := String → ℚ → ℚ

/-- Rational power with a rational exponent: integer exponents act as
monomial powers, fractional exponents are outside the modelled fragment and
evaluate to 0. -/
def qpow (a e : ℚ) : ℚ :=
  if e.den = 1 then
    (if 0 ≤ e.num then a ^ e.num.toNat else (a ^ (-e.num).toNat)⁻¹)
  else 0

/-- Semantics of one binary combinator. -/
def Comb.eval : Comb → ℚ → ℚ → ℚ
  | .add => fun x y => x + y
  | .sub => fun x y => x - y
  | .mul => fun x y => x * y
  | .div => fun x y => x / y
  | .pow => qpow

/-- Modelled from the spec: direct (uncompiled) simulation of an Objective at
a complete variable binding, without samples: every leaf contributes the exact
expectation value of its underlying node. -/
def Objective.simulate (E : NodeSem) (T : TransSem) : Objective → Binding → ℚ
  | .const c, _ => c
  | .leaf l, v => E l.node v
  | .bin op a b, v => op.eval (a.simulate E T v) (b.simulate E T v)
  | .un f a, v => T f (a.simulate E T v)

/-- Association-list lookup by decidable equality (first match wins). -/
def alookup {α β : Type} [DecidableEq α] (k : α) : List (α × β) → Option β
  | [] => none
  | (a, b) :: rest => if a = k then some b else alookup k rest

/-- Modelled from the spec: the Compiler's memoization key — the structural
ExpectationNode combined with backend identity and noise-model identity. -/
abbrev CKey := ExpectationNode × String × NoiseModel

/-- Modelled from the spec: the Compiler's state.  `cache` memoizes compiled
executables per (node, backend, noise) key; `execNode` records, per executable
identity, the node whose expectation it computes (the arena of built
executables); `next` is the next fresh executable identity; `calls` is the
ordered log of backend-factory invocations. -/
structure CompCtx where
  cache : List (CKey × ℕ)
  execNode : List (ℕ × ExpectationNode)
  next : ℕ
  calls : List CKey

/-- The empty compiler state: nothing cached, no factory calls made. -/
def CompCtx.empty : CompCtx := ⟨[], [], 0, []⟩

/-- Modelled from the spec: compile one raw leaf key — reuse the memoized
executable when the key is cached, otherwise invoke the backend factory
(allocating a fresh executable identity, recording the call) and insert the
result into the cache. -/
def compileLeaf (ctx : CompCtx) (k : CKey) : CompCtx × ℕ :=
  match alookup k ctx.cache with
  | some i => (ctx, i)
  | none =>
      (⟨ctx.cache ++ [(k, ctx.next)], ctx.execNode ++ [(ctx.next, k.1)],
        ctx.next + 1, ctx.calls ++ [k]⟩, ctx.next)

/-- Modelled from the spec: traverse the DAG compiling every raw leaf to the
requested backend and noise model through the memoization cache; leaves
already compiled (supplied pre-compiled by the caller) are left untouched. -/
def compileCore (b : String) (n : NoiseModel) : CompCtx → Objective → CompCtx × Objective
  | ctx, .const c => (ctx, .const c)
  | ctx, .leaf (.raw e) =>
      let r := compileLeaf ctx (e, b, n)
      (r.1, .leaf (.compiled e b r.2))
  | ctx, .leaf (.compiled e x i) => (ctx, .leaf (.compiled e x i))
  | ctx, .bin op a c =>
      let ra := compileCore b n ctx a
      let rc := compileCore b n ra.1 c
      (rc.1, .bin op ra.2 rc.2)
  | ctx, .un f a =>
      let ra := compileCore b n ctx a
      (ra.1, .un f ra.2)

/-- The leaves of an Objective in left-to-right traversal order. -/
def Objective.leaves : Objective → List OLeaf
  | .const _ => []
  | .leaf l => [l]
  | .bin _ a b => a.leaves ++ b.leaves
  | .un _ a => a.leaves

/-- `true` iff every leaf of the Objective carries a compiled executable. -/
def Objective.fullyCompiled (o : Objective) : Bool :=
  o.leaves.all (fun l => match l with | .raw _ => false | .compiled _ _ _ => true)

/-- `true` iff the Objective is fully compiled and every compiled leaf is
bound to backend `b`. -/
def Objective.compiledTo (o : Objective) (b : String) : Bool :=
  o.leaves.all (fun l => match l with | .raw _ => false | .compiled _ x _ => x = b)

/-- Forget all compiled executables, turning every leaf back into its raw
ExpectationNode. -/
def Objective.strip : Objective → Objective
  | .const c => .const c
  | .leaf l => .leaf (.raw l.node)
  | .bin op a b => .bin op a.strip b.strip
  | .un f a => .un f a.strip

/-- `true` iff some leaf is compiled to a backend other than `b` — the
mixed-backend condition that triggers the hybrid diagnostic. -/
def Objective.mixedWarn (o : Objective) (b : String) : Bool :=
  o.leaves.any (fun l => match l with | .raw _ => false | .compiled _ x _ => x ≠ b)

/-- Modelled from the spec: `compile(objective, backend, noise) ->
CompiledObjective`.  Re-compiling an Objective already fully compiled to the
requested backend is a no-op returning the cached form; re-compiling one
fully compiled to a different backend replaces every leaf; otherwise only the
uncompiled leaves are compiled and pre-compiled leaves are left untouched,
with a warning (not an error) when the result is mixed-backend.  The Boolean
component reports whether the diagnostic was emitted. -/
def compile (ctx : CompCtx) (b : String) (n : NoiseModel) (o : Objective) :
    CompCtx × Objective × Bool :=
  if o.compiledTo b then (ctx, o, false)
  else if o.fullyCompiled then
    let r := compileCore b n ctx o.strip
    (r.1, r.2, r.2.mixedWarn b)
  else
    let r := compileCore b n ctx o
    (r.1, r.2, r.2.mixedWarn b)

/-- Exact evaluation of a backend executable by identity: look up the node it
was built for and take its exact expectation value. -/
def execSem (E : NodeSem) (ctx : CompCtx) (i : ℕ) (v : Binding) : ℚ :=
  match alookup i ctx.execNode with
  | some e => E e v
  | none => 0

/-- Modelled from the spec: invoking a CompiledObjective at a binding without
samples: compiled leaves run their backend executables, raw leaves fall back
to direct simulation, combinators mirror the DAG. -/
def Objective.evalCompiled (E : NodeSem) (T : TransSem) (ctx : CompCtx) :
    Objective → Binding → ℚ
  | .const c, _ => c
  | .leaf (.raw e), v => E e v
  | .leaf (.compiled _ _ i), v => execSem E ctx i v
  | .bin op a b, v => op.eval (a.evalCompiled E T ctx v) (b.evalCompiled E T ctx v)
  | .un f a, v => T f (a.evalCompiled E T ctx v)

/-- Compiler-state well-formedness: every cached executable computes the node
of its key, and every built executable has an identity below `next`. -/
def CompCtx.WF (ctx : CompCtx) : Prop :=
  (∀ k i, alookup k ctx.cache = some i → alookup i ctx.execNode = some k.1) ∧
  (∀ p ∈ ctx.execNode, p.1 < ctx.next)

/-- An Objective is consistent with a compiler state when each of its
pre-compiled leaves' executables computes exactly that leaf's node. -/
def Objective.LeavesWF (ctx : CompCtx) (o : Objective) : Prop :=
  ∀ l ∈ o.leaves, ∀ e x i, l = OLeaf.compiled e x i →
    alookup i ctx.execNode = some e

/-- Modelled from the spec: the generator-dependent shift constant of the
parameter-shift rule (the π/2 analogue for the common single-qubit rotation
family); a rational stand-in whose exact value none of the structural claims
depend on. -/
def shiftConstant : ℚ := 1 / 2

/-- Modelled from the spec: the fixed combination coefficient derived from
the operation's eigenvalue spectrum. -/
def shiftCoefficient : ℚ := 1 / 2

/-- Shift a gate parameter by `s` (only ever applied to parameters that
mention the differentiation variable). -/
def Param.shift (s : ℚ) : Param → Param
  | .const c => .const c
  | .var v => .shifted v s
  | .shifted v t => .shifted v (t + s)

/-- Replace the parameter of the gate at position `j` by its `s`-shifted
form, leaving every other gate unchanged. -/
def Procedure.shiftAt (p : Procedure) (j : ℕ) (s : ℚ) : Procedure :=
  ⟨(p.ops.enum.map (fun gi =>
      if gi.1 = j then { gi.2 with param := gi.2.param.shift s } else gi.2))⟩

/-- Modelled from the spec: the parameter-shift derivative of one
ExpectationNode with respect to `v` — for every gate whose parameter mentions
`v`, combine the two ExpectationNodes whose Procedures are identical except
that gate's parameter is shifted by ± the shift constant, with the fixed
coefficients; sum the per-gate contributions (zero when no gate mentions
`v`). -/
def paramShiftLeaf (e : ExpectationNode) (v : VarName) : Objective :=
  let idxs := (e.procedure.ops.enum.filter
    (fun gi => v ∈ gi.2.param.vars)).map (fun gi => gi.1)
  idxs.foldr
    (fun j acc =>
      .bin .add
        (.bin .mul (.const shiftCoefficient)
          (.bin .sub
            (.leaf (.raw ⟨e.procedure.shiftAt j shiftConstant, e.observable⟩))
            (.leaf (.raw ⟨e.procedure.shiftAt j (-shiftConstant), e.observable⟩))))
        acc)
    (.const 0)

/-- Modelled from the spec: the analytic (parameter-shift) differentiator —
a new Objective representing ∂/∂v of the input.  Constants differentiate to
zero; substructures not containing `v` contribute zero and are pruned; chain,
product, quotient and power rules are applied symbolically across
combinators. -/
def Objective.grad (v : VarName) : Objective → Objective
  | .const _ => .const 0
  | .leaf l => if v ∈ l.node.varList then paramShiftLeaf l.node v else .const 0
  | .bin op a b =>
      if v ∈ a.varList ++ b.varList then
        match op with
        | .add => .bin .add (a.grad v) (b.grad v)
        | .sub => .bin .sub (a.grad v) (b.grad v)
        | .mul => .bin .add (.bin .mul (a.grad v) b) (.bin .mul a (b.grad v))
        | .div =>
            .bin .div
              (.bin .sub (.bin .mul (a.grad v) b) (.bin .mul a (b.grad v)))
              (.bin .mul b b)
        | .pow =>
            .bin .mul
              (.bin .mul b (.bin .pow a (.bin .sub b (.const 1))))
              (a.grad v)
      else .const 0
  | .un f a =>
      if v ∈ a.varList then .bin .mul (.un ("d:" ++ f) a) (a.grad v)
      else .const 0

/-- A point in parameter space for numeric differentiation. -/
abbrev Point := VarName → ℚ

/-- Update one coordinate of a point. -/
def Point.update (p : Point) (k : VarName) (x : ℚ) : Point :=
  fun v => if v = k then x else p v

/-- Modelled from the spec: the central 2-point stencil
`(f(a+h/2) - f(a-h/2)) / h` (the default). -/
def centralStencil (f : Point → ℚ) (p : Point) (k : VarName) (h : ℚ)
    (_extra : List ℚ) : ℚ :=
  (f (p.update k (p k + h / 2)) - f (p.update k (p k - h / 2))) / h

/-- Modelled from the spec: the forward stencil `(f(a+h) - f(a)) / h`. -/
def forwardStencil (f : Point → ℚ) (p : Point) (k : VarName) (h : ℚ)
    (_extra : List ℚ) : ℚ :=
  (f (p.update k (p k + h)) - f p) / h

/-- Modelled from the spec: the backward stencil `(f(a) - f(a-h)) / h`. -/
def backwardStencil (f : Point → ℚ) (p : Point) (k : VarName) (h : ℚ)
    (_extra : List ℚ) : ℚ :=
  (f p - f (p.update k (p k - h))) / h

/-- Modelled from the spec: the numeric-differentiation method is one of the
three built-in stencils or a user-supplied callable satisfying the stencil
contract `stencil(evaluate_fn, point, variable_key, stepsize, *extra)`. -/
inductive GradMethod where
  | central
  | forward
  | backward
  | custom (stencil : (Point → ℚ) → Point → VarName → ℚ → List ℚ → ℚ)

/-- Modelled from the spec: numeric differentiation dispatch — it produces a
derivative value at a point (not a new Objective), via the selected
stencil. -/
def numericalGradient : GradMethod → (Point → ℚ) → Point → VarName → ℚ → List ℚ → ℚ
  | .central => centralStencil
  | .forward => forwardStencil
  | .backward => backwardStencil
  | .custom s => s

/-- Modelled from the spec: an operand of Objective arithmetic — either a
numeric constant or an Objective (which may itself contain compiled
leaves). -/
inductive Operand where
  | num (c : ℚ)
  | obj (o : Objective)

/-- View an operand as an Objective, embedding constants. -/
def Operand.toObjective : Operand → Objective
  | .num c => .const c
  | .obj o => o

/-- Modelled from the spec: the construction-time error kind — never actually
raised by Objective arithmetic (construction is total). -/
inductive ConstructionError where
  | err (msg : String)

/-- Modelled from the spec: an arithmetic combination of two operands builds
a new Objective with the operands as its (unmutated) children; structural
problems are deferred to compile time, so construction always succeeds. -/
def Objective.combine (op : Comb) (x y : Operand) :
    Except ConstructionError Objective :=
  .ok (.bin op x.toObjective y.toObjective)

/-- Bind a list of values positionally against a list of variable names
(missing positions default to 0). -/
def bindList : List VarName → List ℚ → Binding
  | [], _ => fun _ => 0
  | _ :: _, [] => fun _ => 0
  | k :: ks, x :: xs => fun v => if v = k then x else bindList ks xs v

/-- Modelled from the spec: positional invocation of a compiled callable —
the arguments are bound to variables in the order `extract_variables`
returns. -/
def Objective.callPositional (E : NodeSem) (T : TransSem) (o : Objective)
    (args : List ℚ) : ℚ :=
  o.simulate E T (bindList o.extract_variables args)

/-- Call-log sanity: the factory-invocation log has no duplicate keys, and
every invoked key has been inserted into the memoization cache. -/
def CompCtx.CallsInv (ctx : CompCtx) : Prop :=
  ctx.calls.Nodup ∧ ∀ k ∈ ctx.calls, ∃ i, alookup k ctx.cache = some i

/-- Relation between an input leaf and its image under compilation to backend
`b`: pre-compiled leaves are untouched (the very same leaf, executable
identity included), raw leaves come back compiled to `b`. -/
def LeafRel (b : String) (l l' : OLeaf) : Prop :=
  (∀ e x i, l = OLeaf.compiled e x i → l' = l) ∧
  (∀ e, l = OLeaf.raw e → ∃ i, l' = OLeaf.compiled e b i)

/-- Modelled from the spec: a circuit compiled to a backend — the abstract
Procedure bound to the backend identity. -/
structure CompiledCircuit where
  proc : Procedure
  backend : String

/-- Modelled from the spec: compiling a circuit binds it to the backend. -/
def compileCircuit (b : String) (p : Procedure) : CompiledCircuit := ⟨p, b⟩

/-- Modelled from the spec: invoking a compiled circuit without samples
simulates the wavefunction of its procedure at the binding, under the
backend-agnostic wavefunction semantics `W`. -/
def CompiledCircuit.run {α : Type} (W : Procedure → Binding → α)
    (c : CompiledCircuit) (v : Binding) : α :=
  W c.proc v

/-- The empty noise model, used as a concrete input. -/
def noNoise : NoiseModel := ⟨[]⟩

/-- A concrete demonstration ExpectationNode: rotate-Y by variable `a` on
qubit 0, measured against a single Pauli term. -/
def demoNode : ExpectationNode :=
  ⟨⟨[⟨"Ry", [0], [], .var "a"⟩]⟩, ⟨[("X0", 1)]⟩⟩

/-- A second, structurally different demonstration ExpectationNode. -/
def demoNode2 : ExpectationNode :=
  ⟨⟨[⟨"Rx", [1], [], .var "b"⟩]⟩, ⟨[("Z1", 1)]⟩⟩

/-- An Objective containing the same ExpectationNode twice by value. -/
def c1obj : Objective :=
  .bin .add (.leaf (.raw demoNode)) (.leaf (.raw demoNode))

/-- A hybrid Objective: one leaf pre-compiled to backend "qulacs", one raw. -/
def c2obj : Objective :=
  .bin .add (.leaf (.compiled demoNode "qulacs" 0)) (.leaf (.raw demoNode2))

/-- An Objective fully compiled to backend "qulacs". -/
def c3obj : Objective :=
  .bin .add (.leaf (.compiled demoNode "qulacs" 0))
    (.leaf (.compiled demoNode2 "qulacs" 1))

/-- An Objective over two distinct nodes, with variables `a` then `b` in
traversal order. -/
def c6obj : Objective :=
  .bin .add (.leaf (.raw demoNode)) (.leaf (.raw demoNode2))

/-- A concrete noise entry used in the NoiseModel counterexample. -/
def bitFlipEntry : NoiseEntry := ⟨1, 1, "bit flip"⟩

/-- A NoiseModel with a single entry. -/
def nmSingle : NoiseModel := ⟨[bitFlipEntry]⟩

/-- A NoiseModel repeating the same entry twice. -/
def nmDouble : NoiseModel := ⟨[bitFlipEntry, bitFlipEntry]⟩

/-! ## Association-list lemmas -/

theorem alookup_append_of_some {α β : Type} [DecidableEq α] {k : α} {b : β}
    {l m : List (α × β)} (h : alookup k l = some b) :
    alookup k (l ++ m) = some b := by
  induction l with
  | nil => simp [alookup] at h
  | cons p rest ih =>
      rw [alookup] at h
      rw [List.cons_append, alookup]
      by_cases hp : p.1 = k
      · rw [if_pos hp] at h ⊢
        exact h
      · rw [if_neg hp] at h ⊢
        exact ih h

theorem alookup_append_of_none {α β : Type} [DecidableEq α] {k : α}
    {l : List (α × β)} (m : List (α × β)) (h : alookup k l = none) :
    alookup k (l ++ m) = alookup k m := by
  induction l with
  | nil => simp
  | cons p rest ih =>
      rw [alookup] at h
      rw [List.cons_append, alookup]
      by_cases hp : p.1 = k
      · rw [if_pos hp] at h
        exact absurd h (by simp)
      · rw [if_neg hp] at h ⊢
        exact ih h

theorem alookup_of_forall_ne {α β : Type} [DecidableEq α] {k : α}
    {l : List (α × β)} (h : ∀ p ∈ l, p.1 ≠ k) : alookup k l = none := by
  induction l with
  | nil => rfl
  | cons p rest ih =>
      rw [alookup, if_neg (h p (List.mem_cons_self p rest))]
      exact ih (fun q hq => h q (List.mem_cons_of_mem p hq))

theorem alookup_singleton_self {α β : Type} [DecidableEq α] (k : α) (b : β) :
    alookup k [(k, b)] = some b := by
  rw [alookup, if_pos rfl]

/-! ## First-appearance deduplication lemmas -/

theorem mem_firstDedup (x : VarName) (l : List VarName) :
    x ∈ firstDedup l ↔ x ∈ l := by
  induction l using firstDedup.induct with
  | case1 => simp [firstDedup]
  | case2 y ys ih =>
      rw [firstDedup]
      by_cases hxy : x = y
      · subst hxy
        simp
      · simp only [List.mem_cons, hxy, false_or]
        rw [ih, List.mem_filter]
        simp [hxy]

theorem nodup_firstDedup (l : List VarName) : (firstDedup l).Nodup := by
  induction l using firstDedup.induct with
  | case1 => simp [firstDedup]
  | case2 y ys ih =>
      rw [firstDedup, List.nodup_cons]
      refine ⟨fun hy => ?_, ih⟩
      rw [mem_firstDedup, List.mem_filter] at hy
      simp at hy

theorem sublist_firstDedup (l : List VarName) : (firstDedup l).Sublist l := by
  induction l using firstDedup.induct with
  | case1 => simp [firstDedup]
  | case2 y ys ih =>
      rw [firstDedup]
      exact List.Sublist.cons₂ y (ih.trans (List.filter_sublist ys))

theorem firstSeen_eq_append (l : List VarName) : ∀ acc : List VarName,
    firstSeen acc l = acc ++ firstDedup (l.filter (fun y => y ∉ acc)) := by
  induction l with
  | nil => intro acc; simp [firstSeen, firstDedup]
  | cons x xs ih =>
      intro acc
      rw [firstSeen]
      by_cases hx : x ∈ acc
      · rw [if_pos hx]
        have hfilter : (x :: xs).filter (fun y => y ∉ acc)
            = xs.filter (fun y => y ∉ acc) := by
          rw [List.filter_cons]
          simp [hx]
        rw [hfilter]
        exact ih acc
      · rw [if_neg hx]
        have hfilter : (x :: xs).filter (fun y => y ∉ acc)
            = x :: xs.filter (fun y => y ∉ acc) := by
          rw [List.filter_cons]
          simp [hx]
        rw [hfilter, firstDedup, ih (acc ++ [x]), List.append_assoc,
          List.singleton_append]
        have hpred : (xs.filter (fun y => y ∉ acc)).filter (fun y => y ≠ x)
            = xs.filter (fun y => y ∉ acc ++ [x]) := by
          rw [List.filter_filter]
          apply List.filter_congr
          intro y _
          by_cases h1 : y ∈ acc <;> by_cases h2 : y = x <;>
            simp [h1, h2, List.mem_append]
        rw [hpred]

theorem extract_variables_eq_firstSeen (o : Objective) :
    o.extract_variables = firstSeen [] o.varList := by
  rw [Objective.extract_variables, firstSeen_eq_append, List.nil_append]
  have : o.varList.filter (fun y => y ∉ ([] : List VarName)) = o.varList := by
    apply List.filter_eq_self.2
    intro a _
    simp
  rw [this]

/-! ## Compiler-state invariants and lemmas -/

theorem CompCtx.empty_WF : CompCtx.empty.WF := by
  constructor
  · intro k i h
    simp [CompCtx.empty, alookup] at h
  · intro p hp
    simp [CompCtx.empty] at hp

theorem CompCtx.empty_CallsInv : CompCtx.empty.CallsInv := by
  constructor
  · exact List.nodup_nil
  · intro k hk
    simp [CompCtx.empty] at hk

theorem compileLeaf_cache_mono (ctx : CompCtx) (k : CKey) (k' : CKey) (i : ℕ)
    (h : alookup k' ctx.cache = some i) :
    alookup k' (compileLeaf ctx k).1.cache = some i := by
  rw [compileLeaf]
  cases hk : alookup k ctx.cache with
  | some j => exact h
  | none => exact alookup_append_of_some h

theorem compileLeaf_exec_mono (ctx : CompCtx) (k : CKey) (i : ℕ)
    (e : ExpectationNode) (h : alookup i ctx.execNode = some e) :
    alookup i (compileLeaf ctx k).1.execNode = some e := by
  rw [compileLeaf]
  cases hk : alookup k ctx.cache with
  | some j => exact h
  | none => exact alookup_append_of_some h

theorem compileLeaf_WF (ctx : CompCtx) (k : CKey) (h : ctx.WF) :
    (compileLeaf ctx k).1.WF ∧
      alookup (compileLeaf ctx k).2 (compileLeaf ctx k).1.execNode = some k.1 := by
  rw [compileLeaf]
  cases hk : alookup k ctx.cache with
  | some j =>
      exact ⟨h, h.1 k j hk⟩
  | none =>
      have hfresh : alookup ctx.next ctx.execNode = none :=
        alookup_of_forall_ne (fun p hp => Nat.ne_of_lt (h.2 p hp))
      have hnew : alookup ctx.next (ctx.execNode ++ [(ctx.next, k.1)]) = some k.1 := by
        rw [alookup_append_of_none _ hfresh, alookup_singleton_self]
      refine ⟨⟨?_, ?_⟩, hnew⟩
      · intro k' i' h'
        cases hk' : alookup k' ctx.cache with
        | some j =>
            have := alookup_append_of_some (m := [(k, ctx.next)]) hk'
            rw [this] at h'
            cases h'
            exact alookup_append_of_some (h.1 k' _ hk')
        | none =>
            rw [alookup_append_of_none _ hk'] at h'
            rw [alookup] at h'
            by_cases hkk : k = k'
            · rw [if_pos hkk] at h'
              cases h'
              rw [← hkk]
              exact hnew
            · rw [if_neg hkk] at h'
              simp [alookup] at h'
      · intro p hp
        rcases List.mem_append.1 hp with hp | hp
        · exact Nat.lt_succ_of_lt (h.2 p hp)
        · rw [List.mem_singleton] at hp
          subst hp
          exact Nat.lt_succ_self _

theorem compileLeaf_calls (ctx : CompCtx) (k : CKey) :
    (alookup k ctx.cache ≠ none ∧ (compileLeaf ctx k).1.calls = ctx.calls) ∨
      (alookup k ctx.cache = none ∧
        (compileLeaf ctx k).1.calls = ctx.calls ++ [k]) := by
  rw [compileLeaf]
  cases hk : alookup k ctx.cache with
  | some j => exact Or.inl ⟨by simp, rfl⟩
  | none => exact Or.inr ⟨rfl, rfl⟩

theorem compileLeaf_CallsInv (ctx : CompCtx) (k : CKey) (h : ctx.CallsInv) :
    (compileLeaf ctx k).1.CallsInv := by
  rw [compileLeaf]
  cases hk : alookup k ctx.cache with
  | some j => exact h
  | none =>
      constructor
      · rw [List.nodup_append]
        refine ⟨h.1, List.nodup_singleton k, ?_⟩
        intro a ha hb
        rw [List.mem_singleton] at hb
        subst hb
        obtain ⟨i, hi⟩ := h.2 a ha
        rw [hk] at hi
        cases hi
      · intro k' hk'
        rcases List.mem_append.1 hk' with hmem | hmem
        · obtain ⟨i, hi⟩ := h.2 k' hmem
          exact ⟨i, alookup_append_of_some hi⟩
        · rw [List.mem_singleton] at hmem
          subst hmem
          refine ⟨ctx.next, ?_⟩
          rw [alookup_append_of_none _ hk, alookup_singleton_self]

theorem compileCore_cache_mono (b : String) (n : NoiseModel) :
    ∀ (o : Objective) (ctx : CompCtx) (k : CKey) (i : ℕ),
      alookup k ctx.cache = some i →
        alookup k (compileCore b n ctx o).1.cache = some i := by
  intro o
  induction o with
  | const c => intro ctx k i h; exact h
  | leaf l =>
      intro ctx k i h
      cases l with
      | raw e => exact compileLeaf_cache_mono ctx (e, b, n) k i h
      | compiled e x j => exact h
  | bin op a c iha ihc =>
      intro ctx k i h
      simp only [compileCore]
      exact ihc _ k i (iha ctx k i h)
  | un f a iha =>
      intro ctx k i h
      simp only [compileCore]
      exact iha ctx k i h

theorem compileCore_exec_mono (b : String) (n : NoiseModel) :
    ∀ (o : Objective) (ctx : CompCtx) (i : ℕ) (e : ExpectationNode),
      alookup i ctx.execNode = some e →
        alookup i (compileCore b n ctx o).1.execNode = some e := by
  intro o
  induction o with
  | const c => intro ctx i e h; exact h
  | leaf l =>
      intro ctx i e h
      cases l with
      | raw e0 => exact compileLeaf_exec_mono ctx (e0, b, n) i e h
      | compiled e0 x j => exact h
  | bin op a c iha ihc =>
      intro ctx i e h
      simp only [compileCore]
      exact ihc _ i e (iha ctx i e h)
  | un f a iha =>
      intro ctx i e h
      simp only [compileCore]
      exact iha ctx i e h

theorem compileCore_WF (b : String) (n : NoiseModel) :
    ∀ (o : Objective) (ctx : CompCtx), ctx.WF → (compileCore b n ctx o).1.WF := by
  intro o
  induction o with
  | const c => intro ctx h; exact h
  | leaf l =>
      intro ctx h
      cases l with
      | raw e => exact (compileLeaf_WF ctx (e, b, n) h).1
      | compiled e x j => exact h
  | bin op a c iha ihc =>
      intro ctx h
      simp only [compileCore]
      exact ihc _ (iha ctx h)
  | un f a iha =>
      intro ctx h
      simp only [compileCore]
      exact iha ctx h

theorem compileCore_CallsInv (b : String) (n : NoiseModel) :
    ∀ (o : Objective) (ctx : CompCtx), ctx.CallsInv →
      (compileCore b n ctx o).1.CallsInv := by
  intro o
  induction o with
  | const c => intro ctx h; exact h
  | leaf l =>
      intro ctx h
      cases l with
      | raw e => exact compileLeaf_CallsInv ctx (e, b, n) h
      | compiled e x j => exact h
  | bin op a c iha ihc =>
      intro ctx h
      simp only [compileCore]
      exact ihc _ (iha ctx h)
  | un f a iha =>
      intro ctx h
      simp only [compileCore]
      exact iha ctx h

theorem compileCore_calls (b : String) (n : NoiseModel) :
    ∀ (o : Objective) (ctx : CompCtx),
      ∃ new, (compileCore b n ctx o).1.calls = ctx.calls ++ new ∧
        ∀ k ∈ new, alookup k ctx.cache = none := by
  intro o
  induction o with
  | const c =>
      intro ctx
      exact ⟨[], by simp [compileCore], by simp⟩
  | leaf l =>
      intro ctx
      cases l with
      | raw e =>
          rcases compileLeaf_calls ctx (e, b, n) with ⟨_, hc⟩ | ⟨hnone, hc⟩
          · exact ⟨[], by simp only [compileCore]; simp [hc], by simp⟩
          · refine ⟨[(e, b, n)], by simp only [compileCore]; exact hc, ?_⟩
            intro k hk
            rw [List.mem_singleton] at hk
            subst hk
            exact hnone
      | compiled e x j => exact ⟨[], by simp [compileCore], by simp⟩
  | bin op a c iha ihc =>
      intro ctx
      obtain ⟨new₁, h₁, hn₁⟩ := iha ctx
      obtain ⟨new₂, h₂, hn₂⟩ := ihc (compileCore b n ctx a).1
      refine ⟨new₁ ++ new₂, ?_, ?_⟩
      · simp only [compileCore]
        rw [h₂, h₁, List.append_assoc]
      · intro k hk
        rcases List.mem_append.1 hk with hk | hk
        · exact hn₁ k hk
        · cases hck : alookup k ctx.cache with
          | none => rfl
          | some i =>
              have := compileCore_cache_mono b n a ctx k i hck
              rw [hn₂ k hk] at this
              cases this
  | un f a iha =>
      intro ctx
      obtain ⟨new₁, h₁, hn₁⟩ := iha ctx
      exact ⟨new₁, by simpa only [compileCore] using h₁, hn₁⟩

/-! ## Leaf-level shape of compilation -/

theorem compileCore_leaves (b : String) (n : NoiseModel) :
    ∀ (o : Objective) (ctx : CompCtx),
      List.Forall₂ (LeafRel b) o.leaves (compileCore b n ctx o).2.leaves := by
  intro o
  induction o with
  | const c => intro ctx; exact List.Forall₂.nil
  | leaf l =>
      intro ctx
      cases l with
      | raw e =>
          simp only [compileCore, Objective.leaves]
          refine List.Forall₂.cons ⟨?_, ?_⟩ List.Forall₂.nil
          · intro e' x i h
            cases h
          · intro e' h
            cases h
            exact ⟨(compileLeaf ctx (e, b, n)).2, rfl⟩
      | compiled e x j =>
          simp only [compileCore, Objective.leaves]
          refine List.Forall₂.cons ⟨?_, ?_⟩ List.Forall₂.nil
          · intro e' x' i' h
            rfl
          · intro e' h
            cases h
  | bin op a c iha ihc =>
      intro ctx
      simp only [compileCore, Objective.leaves]
      exact List.rel_append (iha ctx) (ihc (compileCore b n ctx a).1)
  | un f a iha =>
      intro ctx
      simp only [compileCore, Objective.leaves]
      exact iha ctx

theorem forall₂_exists_mem {α β : Type} {R : α → β → Prop} :
    ∀ {l₁ : List α} {l₂ : List β}, List.Forall₂ R l₁ l₂ →
      ∀ x ∈ l₁, ∃ y ∈ l₂, R x y := by
  intro l₁ l₂ h
  induction h with
  | nil => intro x hx; cases hx
  | cons hR _ ih =>
      intro x hx
      rcases List.mem_cons.1 hx with hx | hx
      · subst hx
        exact ⟨_, List.mem_cons_self _ _, hR⟩
      · obtain ⟨y, hy, hxy⟩ := ih x hx
        exact ⟨y, List.mem_cons_of_mem _ hy, hxy⟩

theorem strip_leaves_raw : ∀ (o : Objective), ∀ l ∈ o.strip.leaves,
    ∃ e, l = OLeaf.raw e := by
  intro o
  induction o with
  | const c => intro l hl; cases hl
  | leaf l0 =>
      intro l hl
      rw [Objective.strip, Objective.leaves, List.mem_singleton] at hl
      exact ⟨l0.node, hl⟩
  | bin op a c iha ihc =>
      intro l hl
      rw [Objective.strip, Objective.leaves] at hl
      rcases List.mem_append.1 hl with hl | hl
      · exact iha l hl
      · exact ihc l hl
  | un f a iha =>
      intro l hl
      rw [Objective.strip, Objective.leaves] at hl
      exact iha l hl

theorem strip_LeavesWF (ctx : CompCtx) (o : Objective) :
    o.strip.LeavesWF ctx := by
  intro l hl e x i heq
  obtain ⟨e0, he0⟩ := strip_leaves_raw o l hl
  rw [he0] at heq
  cases heq

theorem LeavesWF_mono {ctx ctx' : CompCtx}
    (hm : ∀ i e, alookup i ctx.execNode = some e →
      alookup i ctx'.execNode = some e)
    {o : Objective} (ho : o.LeavesWF ctx) : o.LeavesWF ctx' := by
  intro l hl e x i heq
  exact hm i e (ho l hl e x i heq)

theorem LeavesWF_bin {ctx : CompCtx} {op : Comb} {a c : Objective} :
    (Objective.bin op a c).LeavesWF ctx ↔ a.LeavesWF ctx ∧ c.LeavesWF ctx := by
  constructor
  · intro h
    exact ⟨fun l hl => h l (by rw [Objective.leaves]; exact List.mem_append_left _ hl),
      fun l hl => h l (by rw [Objective.leaves]; exact List.mem_append_right _ hl)⟩
  · intro h l hl
    rw [Objective.leaves] at hl
    rcases List.mem_append.1 hl with hl | hl
    · exact h.1 l hl
    · exact h.2 l hl

theorem LeavesWF_un {ctx : CompCtx} {f : String} {a : Objective} :
    (Objective.un f a).LeavesWF ctx ↔ a.LeavesWF ctx := by
  constructor
  · intro h l hl
    exact h l (by rw [Objective.leaves]; exact hl)
  · intro h l hl
    rw [Objective.leaves] at hl
    exact h l hl

theorem compileCore_LeavesWF (b : String) (n : NoiseModel) :
    ∀ (o : Objective) (ctx : CompCtx), ctx.WF → o.LeavesWF ctx →
      (compileCore b n ctx o).2.LeavesWF (compileCore b n ctx o).1 := by
  intro o
  induction o with
  | const c =>
      intro ctx _ _ l hl
      cases hl
  | leaf l0 =>
      intro ctx hWF ho
      cases l0 with
      | raw e =>
          simp only [compileCore]
          intro l hl e' x' i' heq
          rw [Objective.leaves, List.mem_singleton] at hl
          subst hl
          cases heq
          exact (compileLeaf_WF ctx (e, b, n) hWF).2
      | compiled e x j =>
          simp only [compileCore]
          exact ho
  | bin op a c iha ihc =>
      intro ctx hWF ho
      rw [LeavesWF_bin] at ho
      simp only [compileCore]
      rw [LeavesWF_bin]
      constructor
      · exact LeavesWF_mono
          (compileCore_exec_mono b n c (compileCore b n ctx a).1)
          (iha ctx hWF ho.1)
      · exact ihc (compileCore b n ctx a).1 (compileCore_WF b n a ctx hWF)
          (LeavesWF_mono (compileCore_exec_mono b n a ctx) ho.2)
  | un f a iha =>
      intro ctx hWF ho
      rw [LeavesWF_un] at ho
      simp only [compileCore]
      rw [LeavesWF_un]
      exact iha ctx hWF ho

/-! ## Evaluation lemmas -/

theorem evalCompiled_eq_simulate (E : NodeSem) (T : TransSem) :
    ∀ (o : Objective) (ctx : CompCtx) (v : Binding), o.LeavesWF ctx →
      o.evalCompiled E T ctx v = o.simulate E T v := by
  intro o
  induction o with
  | const c => intro ctx v _; rfl
  | leaf l =>
      intro ctx v ho
      cases l with
      | raw e => rfl
      | compiled e x i =>
          have := ho (OLeaf.compiled e x i)
            (by rw [Objective.leaves]; exact List.mem_singleton_self _)
            e x i rfl
          rw [Objective.evalCompiled, Objective.simulate, execSem, this]
          rfl
  | bin op a c iha ihc =>
      intro ctx v ho
      rw [LeavesWF_bin] at ho
      rw [Objective.evalCompiled, Objective.simulate,
        iha ctx v ho.1, ihc ctx v ho.2]
  | un f a iha =>
      intro ctx v ho
      rw [LeavesWF_un] at ho
      rw [Objective.evalCompiled, Objective.simulate, iha ctx v ho]

theorem simulate_compileCore (E : NodeSem) (T : TransSem) (b : String)
    (n : NoiseModel) : ∀ (o : Objective) (ctx : CompCtx) (v : Binding),
      (compileCore b n ctx o).2.simulate E T v = o.simulate E T v := by
  intro o
  induction o with
  | const c => intro ctx v; rfl
  | leaf l =>
      intro ctx v
      cases l with
      | raw e => rfl
      | compiled e x i => rfl
  | bin op a c iha ihc =>
      intro ctx v
      simp only [compileCore, Objective.simulate]
      rw [iha ctx v, ihc (compileCore b n ctx a).1 v]
  | un f a iha =>
      intro ctx v
      simp only [compileCore, Objective.simulate]
      rw [iha ctx v]

theorem simulate_strip (E : NodeSem) (T : TransSem) :
    ∀ (o : Objective) (v : Binding), o.strip.simulate E T v = o.simulate E T v := by
  intro o
  induction o with
  | const c => intro v; rfl
  | leaf l => intro v; cases l <;> rfl
  | bin op a c iha ihc =>
      intro v
      rw [Objective.strip, Objective.simulate, Objective.simulate, iha v, ihc v]
  | un f a iha =>
      intro v
      rw [Objective.strip, Objective.simulate, Objective.simulate, iha v]

theorem forall₂_exists_mem_right {α β : Type} {R : α → β → Prop} :
    ∀ {l₁ : List α} {l₂ : List β}, List.Forall₂ R l₁ l₂ →
      ∀ y ∈ l₂, ∃ x ∈ l₁, R x y := by
  intro l₁ l₂ h
  induction h with
  | nil => intro y hy; cases hy
  | cons hR _ ih =>
      intro y hy
      rcases List.mem_cons.1 hy with hy | hy
      · subst hy
        exact ⟨_, List.mem_cons_self _ _, hR⟩
      · obtain ⟨x, hx, hxy⟩ := ih y hy
        exact ⟨x, List.mem_cons_of_mem _ hx, hxy⟩

theorem fullyCompiled_false_exists_raw {o : Objective}
    (h : o.fullyCompiled = false) : ∃ e, OLeaf.raw e ∈ o.leaves := by
  rw [Objective.fullyCompiled, List.all_eq_false] at h
  obtain ⟨l, hl, hp⟩ := h
  cases l with
  | raw e => exact ⟨e, hl⟩
  | compiled e x i => simp at hp

theorem compiledTo_false_of_raw {o : Objective} {b : String}
    (h : ∃ e, OLeaf.raw e ∈ o.leaves) : o.compiledTo b = false := by
  obtain ⟨e, he⟩ := h
  cases hc : o.compiledTo b with
  | false => rfl
  | true =>
      rw [Objective.compiledTo, List.all_eq_true] at hc
      have := hc (OLeaf.raw e) he
      simp at this

theorem mixedWarn_true {o : Objective} {b : String}
    (h : ∃ l ∈ o.leaves, ∃ e x i, l = OLeaf.compiled e x i ∧ x ≠ b) :
    o.mixedWarn b = true := by
  obtain ⟨l, hl, e, x, i, rfl, hxb⟩ := h
  rw [Objective.mixedWarn, List.any_eq_true]
  refine ⟨OLeaf.compiled e x i, hl, ?_⟩
  simp [hxb]

/-- C3: re-compiling an Objective already fully compiled to backend X to X
itself is a no-op returning the cached form (state, objective and executables
unchanged, no diagnostic); re-compiling a fully compiled Objective to a
different backend Y replaces every leaf by one compiled to Y. -/
theorem C3_recompile_same_noop_diff_replaces (ctx : CompCtx) (X Y : String)
    (n : NoiseModel) (o : Objective) :
    (o.compiledTo X = true → compile ctx X n o = (ctx, o, false)) ∧
    (o.fullyCompiled = true → o.compiledTo Y = false →
      ∀ l ∈ (compile ctx Y n o).2.1.leaves, ∃ e i, l = OLeaf.compiled e Y i) := by
  constructor
  · intro h
    rw [compile, if_pos h]
  · intro hfull hnot l hl
    rw [compile, if_neg (by rw [hnot]; simp), if_pos hfull] at hl
    obtain ⟨x, hx, hrel⟩ := forall₂_exists_mem_right
      (compileCore_leaves Y n o.strip ctx) l hl
    obtain ⟨e, rfl⟩ := strip_leaves_raw o x hx
    obtain ⟨i, hi⟩ := hrel.2 e rfl
    exact ⟨e, i, hi⟩

/-- C3 witness: both parts of the re-compilation claim at a concrete
fully-compiled Objective. -/
theorem C3_witness :
    c3obj.compiledTo "qulacs" = true ∧
    compile CompCtx.empty "qulacs" noNoise c3obj = (CompCtx.empty, c3obj, false) ∧
    c3obj.fullyCompiled = true ∧ c3obj.compiledTo "cirq" = false ∧
    (∀ l ∈ (compile CompCtx.empty "cirq" noNoise c3obj).2.1.leaves,
      ∃ e i, l = OLeaf.compiled e "cirq" i) :=
  ⟨by decide,
   (C3_recompile_same_noop_diff_replaces CompCtx.empty "qulacs" "cirq" noNoise
      c3obj).1 (by decide),
   by decide, by decide,
   (C3_recompile_same_noop_diff_replaces CompCtx.empty "qulacs" "cirq" noNoise
      c3obj).2 (by decide) (by decide)⟩

/-- C2: compiling a hybrid Objective (leaves pre-compiled to backend X mixed
with raw leaves) to backend Y compiles only the raw leaves to Y, leaves every
pre-compiled leaf untouched (the identical leaf, executable identity
included), yields a mixed-backend result, and emits the diagnostic flag
rather than an error. -/
theorem C2_hybrid_compile_only_raw (ctx : CompCtx) (Y : String)
    (n : NoiseModel) (o : Objective) (hnot : o.fullyCompiled = false)
    (hx : ∃ l ∈ o.leaves, ∃ e x i, l = OLeaf.compiled e x i ∧ x ≠ Y) :
    List.Forall₂ (LeafRel Y) o.leaves (compile ctx Y n o).2.1.leaves ∧
    (compile ctx Y n o).2.2 = true ∧
    (∃ l ∈ (compile ctx Y n o).2.1.leaves, ∃ e x i,
        l = OLeaf.compiled e x i ∧ x ≠ Y) ∧
    (∃ l ∈ (compile ctx Y n o).2.1.leaves, ∃ e i,
        l = OLeaf.compiled e Y i) := by
  have hraw := fullyCompiled_false_exists_raw hnot
  have hcomp : compile ctx Y n o =
      ((compileCore Y n ctx o).1, (compileCore Y n ctx o).2,
        (compileCore Y n ctx o).2.mixedWarn Y) := by
    rw [compile, if_neg (by rw [compiledTo_false_of_raw hraw]; simp),
      if_neg (by rw [hnot]; simp)]
  have hforall : List.Forall₂ (LeafRel Y) o.leaves (compile ctx Y n o).2.1.leaves := by
    rw [hcomp]
    exact compileCore_leaves Y n o ctx
  have hkept : ∃ l ∈ (compile ctx Y n o).2.1.leaves, ∃ e x i,
      l = OLeaf.compiled e x i ∧ x ≠ Y := by
    obtain ⟨l, hl, e, x, i, rfl, hxY⟩ := hx
    obtain ⟨l', hl', hrel⟩ := forall₂_exists_mem hforall _ hl
    have : l' = OLeaf.compiled e x i := hrel.1 e x i rfl
    subst this
    exact ⟨_, hl', e, x, i, rfl, hxY⟩
  refine ⟨hforall, ?_, hkept, ?_⟩
  · rw [hcomp]
    apply mixedWarn_true
    rw [hcomp] at hkept
    exact hkept
  · obtain ⟨e, he⟩ := hraw
    obtain ⟨l', hl', hrel⟩ := forall₂_exists_mem hforall _ he
    obtain ⟨i, hi⟩ := hrel.2 e rfl
    exact ⟨l', hl', e, i, hi⟩

/-- C2 witness: the hybrid-compilation claim at a concrete hybrid Objective
(one leaf compiled to "qulacs", one raw) compiled to "cirq". -/
theorem C2_witness :
    c2obj.fullyCompiled = false ∧
    (∃ l ∈ c2obj.leaves, ∃ e x i, l = OLeaf.compiled e x i ∧ x ≠ "cirq") ∧
    (compile CompCtx.empty "cirq" noNoise c2obj).2.2 = true :=
  ⟨by decide,
   ⟨OLeaf.compiled demoNode "qulacs" 0, by simp [c2obj, Objective.leaves],
     demoNode, "qulacs", 0, rfl, by decide⟩,
   (C2_hybrid_compile_only_raw CompCtx.empty "cirq" noNoise c2obj (by decide)
      ⟨OLeaf.compiled demoNode "qulacs" 0, by simp [c2obj, Objective.leaves],
        demoNode, "qulacs", 0, rfl, by decide⟩).2.1⟩

/-- C1: compilation invokes the backend factory at most once per distinct
(node, backend, noise) key — starting from a sane call log, the whole log
stays duplicate-free after compiling any Objective and no key already in the
memoization cache is ever invoked; an Objective containing the same
ExpectationNode twice by value triggers exactly one factory invocation for
that node; and a leaf whose compiled form is already cached (including leaves
supplied pre-compiled) is reused, with the cached executable identity, rather
than rebuilt. -/
theorem C1_structural_dedup_memoization (ctx : CompCtx) (b : String)
    (n : NoiseModel) (o : Objective) (h : ctx.CallsInv) :
    (∃ new, (compile ctx b n o).1.calls = ctx.calls ++ new ∧
        (compile ctx b n o).1.calls.Nodup ∧
        ∀ k ∈ new, alookup k ctx.cache = none) ∧
    (∀ e : ExpectationNode,
        (compile CompCtx.empty b n
          (.bin .add (.leaf (.raw e)) (.leaf (.raw e)))).1.calls = [(e, b, n)]) ∧
    (∀ e i, alookup (e, b, n) ctx.cache = some i →
        compile ctx b n (.leaf (.raw e)) = (ctx, .leaf (.compiled e b i), false)) := by
  refine ⟨?_, ?_, ?_⟩
  · rw [compile]
    by_cases h1 : o.compiledTo b = true
    · rw [if_pos h1]
      exact ⟨[], by simp, h.1, by simp⟩
    · rw [if_neg h1]
      by_cases h2 : o.fullyCompiled = true
      · rw [if_pos h2]
        obtain ⟨new, hn, hnone⟩ := compileCore_calls b n o.strip ctx
        exact ⟨new, hn, (compileCore_CallsInv b n o.strip ctx h).1, hnone⟩
      · rw [if_neg h2]
        obtain ⟨new, hn, hnone⟩ := compileCore_calls b n o ctx
        exact ⟨new, hn, (compileCore_CallsInv b n o ctx h).1, hnone⟩
  · intro e
    rw [compile, if_neg (by simp [Objective.compiledTo, Objective.leaves]),
      if_neg (by simp [Objective.fullyCompiled, Objective.leaves])]
    simp only [compileCore, compileLeaf, CompCtx.empty, alookup]
    simp [alookup]
  · intro e i hi
    rw [compile, if_neg (by simp [Objective.compiledTo, Objective.leaves]),
      if_neg (by simp [Objective.fullyCompiled, Objective.leaves])]
    simp only [compileCore, compileLeaf, hi]
    simp [Objective.mixedWarn, Objective.leaves]

/-- C1 witness: compiling an Objective holding the same ExpectationNode twice
from the empty compiler state makes exactly one factory call. -/
theorem C1_witness :
    CompCtx.empty.CallsInv ∧
    (compile CompCtx.empty "qulacs" noNoise c1obj).1.calls
      = [(demoNode, "qulacs", noNoise)] :=
  ⟨CompCtx.empty_CallsInv,
   (C1_structural_dedup_memoization CompCtx.empty "qulacs" noNoise c1obj
      CompCtx.empty_CallsInv).2.1 demoNode⟩

/-- C4: compilation preserves evaluation semantics — for any Objective and
complete binding, compiling it to a backend and invoking the compiled result
without samples returns the same value as directly simulating the uncompiled
Objective; likewise a compiled circuit returns the same wavefunction as
direct simulation. -/
theorem C4_compile_preserves_semantics (E : NodeSem) (T : TransSem)
    (ctx : CompCtx) (b : String) (n : NoiseModel) (o : Objective) (v : Binding)
    (hWF : ctx.WF) (ho : o.LeavesWF ctx) :
    (compile ctx b n o).2.1.evalCompiled E T (compile ctx b n o).1 v
      = o.simulate E T v ∧
    (∀ (α : Type) (W : Procedure → Binding → α) (p : Procedure),
      (compileCircuit b p).run W v = W p v) := by
  constructor
  · rw [compile]
    by_cases h1 : o.compiledTo b = true
    · rw [if_pos h1]
      exact evalCompiled_eq_simulate E T o ctx v ho
    · rw [if_neg h1]
      by_cases h2 : o.fullyCompiled = true
      · rw [if_pos h2]
        rw [evalCompiled_eq_simulate E T _ _ v
          (compileCore_LeavesWF b n o.strip ctx hWF (strip_LeavesWF ctx o))]
        rw [simulate_compileCore, simulate_strip]
      · rw [if_neg h2]
        rw [evalCompiled_eq_simulate E T _ _ v
          (compileCore_LeavesWF b n o ctx hWF ho)]
        rw [simulate_compileCore]
  · intro α W p
    rfl

theorem leaf_raw_LeavesWF (ctx : CompCtx) (e : ExpectationNode) :
    (Objective.leaf (OLeaf.raw e)).LeavesWF ctx := by
  intro l hl e' x i heq
  rw [Objective.leaves, List.mem_singleton] at hl
  subst hl
  cases heq

/-- C4 witness: semantics preservation at a concrete node, backend, binding
and node semantics. -/
theorem C4_witness :
    CompCtx.empty.WF ∧
    (Objective.leaf (OLeaf.raw demoNode)).LeavesWF CompCtx.empty ∧
    ((compile CompCtx.empty "qulacs" noNoise
        (Objective.leaf (OLeaf.raw demoNode))).2.1.evalCompiled
      (fun _ _ => (1 : ℚ) / 2) (fun _ x => x)
      (compile CompCtx.empty "qulacs" noNoise
        (Objective.leaf (OLeaf.raw demoNode))).1 (fun _ => 0)
      = (Objective.leaf (OLeaf.raw demoNode)).simulate
          (fun _ _ => (1 : ℚ) / 2) (fun _ x => x) (fun _ => 0)) :=
  ⟨CompCtx.empty_WF,
   leaf_raw_LeavesWF CompCtx.empty demoNode,
   (C4_compile_preserves_semantics (fun _ _ => (1 : ℚ) / 2) (fun _ x => x)
      CompCtx.empty "qulacs" noNoise (Objective.leaf (OLeaf.raw demoNode))
      (fun _ => 0) CompCtx.empty_WF
      (leaf_raw_LeavesWF CompCtx.empty demoNode)).1⟩

theorem NoiseModel.add_entries (a b : NoiseModel) :
    (a + b).entries = a.entries ++ b.entries := rfl

/-- C5 counterexample: the claim "for distinct non-empty a and b, a + b and
b + a have different entry sequences" fails — `⟨[e]⟩` and `⟨[e, e]⟩` are
distinct and non-empty, yet both sums have the entry sequence
`[e, e, e]`. -/
theorem C5_counterexample :
    nmSingle ≠ nmDouble ∧ nmSingle.entries ≠ [] ∧ nmDouble.entries ≠ [] ∧
    (nmSingle + nmDouble).entries = (nmDouble + nmSingle).entries := by
  refine ⟨?_, ?_, ?_, rfl⟩
  · intro h
    have := congrArg (fun m => m.entries.length) h
    simp [nmSingle, nmDouble] at this
  · simp [nmSingle]
  · simp [nmDouble]

/-- C5 (amended): NoiseModel addition concatenates — the entry sequence of
`a + b` is `a`'s sequence followed by `b`'s, each side's internal order
preserved; the operation is associative and pure; and it is not commutative
in general: there exist distinct non-empty `a` and `b` with
`a + b ≠ b + a`. -/
theorem C5_noise_add_concat_assoc_noncomm :
    (∀ a b : NoiseModel, (a + b).entries = a.entries ++ b.entries) ∧
    (∀ a b c : NoiseModel, (a + b) + c = a + (b + c)) ∧
    (∃ a b : NoiseModel, a ≠ b ∧ a.entries ≠ [] ∧ b.entries ≠ [] ∧
      a + b ≠ b + a) := by
  refine ⟨fun a b => rfl, fun a b c => ?_, ?_⟩
  · show NoiseModel.mk ((a + b).entries ++ c.entries)
      = NoiseModel.mk (a.entries ++ (b + c).entries)
    rw [NoiseModel.add_entries, NoiseModel.add_entries, List.append_assoc]
  · refine ⟨⟨[⟨0, 1, "bit flip"⟩]⟩, ⟨[⟨0, 1, "phase flip"⟩]⟩, ?_, ?_, ?_, ?_⟩
    · intro h
      have := congrArg (fun m => m.entries.map (fun en => en.kind)) h
      simp at this
    · simp
    · simp
    · intro h
      have := congrArg (fun m => m.entries.map (fun en => en.kind)) h
      simp [NoiseModel.add_entries] at this

/-- C6: `extract_variables` is deterministic — it returns the unique variable
names (no duplicates, exactly the variables occurring in the Objective), as a
subsequence of the fixed traversal in first-appearance order (the
first-seen scan), identical across repeated calls and across structurally
equal Objectives; and positional invocation of a compiled callable binds its
arguments in exactly this order. -/
theorem C6_extract_variables_deterministic :
    (∀ o : Objective, o.extract_variables.Nodup) ∧
    (∀ (o : Objective) (x : VarName),
      x ∈ o.extract_variables ↔ x ∈ o.varList) ∧
    (∀ o : Objective, o.extract_variables.Sublist o.varList) ∧
    (∀ o : Objective, o.extract_variables = firstSeen [] o.varList) ∧
    (∀ o o' : Objective, o = o' →
      o.extract_variables = o'.extract_variables) ∧
    (∀ (E : NodeSem) (T : TransSem) (o : Objective) (args : List ℚ),
      o.callPositional E T args
        = o.simulate E T (bindList o.extract_variables args)) := by
  refine ⟨fun o => nodup_firstDedup _, fun o x => mem_firstDedup x _,
    fun o => sublist_firstDedup _, fun o => extract_variables_eq_firstSeen o,
    fun o o' h => ?_, fun E T o args => rfl⟩
  rw [h]

/-- C6 witness: the deterministic ordering at a concrete two-variable
Objective. -/
theorem C6_witness :
    c6obj = c6obj ∧
    c6obj.extract_variables = c6obj.extract_variables ∧
    c6obj.extract_variables = ["a", "b"] :=
  ⟨rfl, C6_extract_variables_deterministic.2.2.2.2.1 c6obj c6obj rfl,
   by simp [c6obj, Objective.extract_variables, Objective.varList,
     OLeaf.node, demoNode, demoNode2, ExpectationNode.varList,
     Procedure.varList, Param.vars, firstDedup]⟩

/-- C7: Objective construction is total and pure — every arithmetic
combination of operands (Objectives, numeric constants, and Objectives
containing compiled leaves) returns `ok` with a new Objective whose children
are the unchanged operands; no error is ever produced at construction
time. -/
theorem C7_construction_total (op : Comb) (x y : Operand) :
    Objective.combine op x y
      = Except.ok (Objective.bin op x.toObjective y.toObjective) := rfl

/-- C8: numeric differentiation has exactly the three built-in stencils —
central `(f(a+h/2) - f(a-h/2))/h` (the default), forward `(f(a+h) - f(a))/h`
and backward `(f(a) - f(a-h))/h` — plus a user-supplied callable dispatched
with the stencil contract `(evaluate_fn, point, variable_key, stepsize,
extra)`; the result is a derivative value at a point, not an Objective. -/
theorem C8_numeric_stencils :
    (∀ f p k h ex, numericalGradient GradMethod.central f p k h ex
        = (f (p.update k (p k + h / 2)) - f (p.update k (p k - h / 2))) / h) ∧
    (∀ f p k h ex, numericalGradient GradMethod.forward f p k h ex
        = (f (p.update k (p k + h)) - f p) / h) ∧
    (∀ f p k h ex, numericalGradient GradMethod.backward f p k h ex
        = (f p - f (p.update k (p k - h))) / h) ∧
    (∀ s f p k h ex, numericalGradient (GradMethod.custom s) f p k h ex
        = s f p k h ex) :=
  ⟨fun _ _ _ _ _ => rfl, fun _ _ _ _ _ => rfl, fun _ _ _ _ _ => rfl,
    fun _ _ _ _ _ _ => rfl⟩

/-- C9: analytic differentiation with respect to a Variable not occurring in
the Objective returns the zero-constant Objective (total, no error). -/
theorem C9_grad_absent_variable_zero (o : Objective) (v : VarName)
    (h : v ∉ o.extract_variables) : o.grad v = Objective.const 0 := by
  have hv : v ∉ o.varList := fun hm => h ((mem_firstDedup v o.varList).2 hm)
  cases o with
  | const c => rfl
  | leaf l =>
      simp only [Objective.varList] at hv
      simp only [Objective.grad]
      rw [if_neg hv]
  | bin op a b =>
      simp only [Objective.varList] at hv
      simp only [Objective.grad]
      rw [if_neg hv]
  | un f a =>
      simp only [Objective.varList] at hv
      simp only [Objective.grad]
      rw [if_neg hv]

/-- C9 witness: differentiating a one-variable Objective with respect to an
absent variable. -/
theorem C9_witness :
    "z" ∉ (Objective.leaf (OLeaf.raw demoNode)).extract_variables ∧
    (Objective.leaf (OLeaf.raw demoNode)).grad "z" = Objective.const 0 :=
  ⟨by simp [Objective.extract_variables, Objective.varList, OLeaf.node,
      demoNode, ExpectationNode.varList, Procedure.varList, Param.vars,
      firstDedup],
   C9_grad_absent_variable_zero (Objective.leaf (OLeaf.raw demoNode)) "z"
     (by simp [Objective.extract_variables, Objective.varList, OLeaf.node,
        demoNode, ExpectationNode.varList, Procedure.varList, Param.vars,
        firstDedup])⟩

/-- C10: at any binding where the inner expectation value of a node is
exactly 1/2, the Objective `node ** 2 + 1` evaluates exactly to 5/4
(= 1.25). -/
theorem C10_square_plus_one (E : NodeSem) (T : TransSem) (v : Binding)
    (e : ExpectationNode) (h : E e v = 1 / 2) :
    (Objective.bin .add (.bin .pow (.leaf (.raw e)) (.const 2))
        (.const 1)).simulate E T v = 5 / 4 := by
  simp only [Objective.simulate, Comb.eval, OLeaf.node, h]
  rw [qpow]
  norm_num
  rw [show Int.toNat 2 = 2 from rfl]
  norm_num

/-- C10 witness: the squared-expectation scenario at a concrete node
semantics whose value is 1/2. -/
theorem C10_witness :
    (fun (_ : ExpectationNode) (_ : Binding) => (1 : ℚ) / 2) demoNode
        (fun _ => 0) = 1 / 2 ∧
    (Objective.bin .add (.bin .pow (.leaf (.raw demoNode)) (.const 2))
        (.const 1)).simulate (fun _ _ => (1 : ℚ) / 2) (fun _ x => x)
        (fun _ => 0) = 5 / 4 :=
  ⟨rfl, C10_square_plus_one (fun _ _ => (1 : ℚ) / 2) (fun _ x => x)
    (fun _ => 0) demoNode rfl⟩

end Tequila
